import Mathlib

/-
Verification of the go-event event emitter (github.com/xgfone/go-event).

The development shallowly embeds the registry + dispatch engine of the
repository:

  * `Emitter` models the Go struct `emitter` (impl.go): the authoritative
    mapping `evtm : map[string]map[string]namedListener`, the published
    snapshot `evtv`, and the atomic counter `eidx`.  Go maps are modelled
    as association lists with unique keys (uniqueness is part of the
    reachability invariant `Inv`); the `uint64` counter is modelled as a
    natural number reduced modulo `2 ^ 64` exactly where Go wraps.
  * listener callbacks are modelled as pure functions
    `String → List α → Option String`; a `some msg` result models a Go
    panic carrying `msg`.  A `once`-wrapped listener (struct
    `onceListener`) carries the identity of its atomic `emitted` flag;
    the set of flags that have been compare-and-swapped to 1 lives in the
    emitter state (`onceFlags`), which models the sharing of the flag
    between the registry and every published snapshot.
  * dispatch produces an explicit trace: a `Tr.call` entry for each
    invocation of a listener `EventCallback` by the emit loop, and a
    `Tr.forward` entry each time a once-wrapper forwards to its wrapped
    listener.
  * `eventManager` and `matchEvent` model the pattern-matching variant
    of the library; Go strings are modelled as `List Char` in the
    matcher (the relevant Go string primitives operate on byte sequences
    and agree with the character-level model on the code points involved).
-/

namespace GoEvent

/-- Go `uint64` modulus: the `eidx` counter wraps at this bound. -/
def U64 : Nat := 2 ^ 64

/-- Result of a Go callback body: `none` for normal return, `some msg`
for a panic carrying message `msg`. -/
abbrev Callback (α : Type) : Type := String → List α → Option String

/-- Listener values (interface `Listener`): either a plain callback
(`ListenerFunc` / `listener`), or a `onceListener` wrapper holding the
identity `id` of its atomic `emitted` flag, the listener name `lnname`
used for self-deregistration, and the wrapped listener. -/
inductive Ln (α : Type) where
  | func (cb : Callback α)
  | once (id : Nat) (lnname : String) (inner : Ln α)

/-- Go struct `namedListener`: a listener together with its name and its
registration sequence number (`Index`). -/
structure NamedListener (α : Type) where
  Name : String
  Index : Nat
  ln : Ln α

/-- Association-list model of a Go `map[string]β`. -/
def assocFind {β : Type} : List (String × β) → String → Option β
  | [], _ => none
  | (k, v) :: rest, key => if k = key then some v else assocFind rest key

/-- Insert-or-overwrite on a Go map: replace the value at an existing key
in place, otherwise add a fresh key. -/
def assocSet {β : Type} : List (String × β) → String → β → List (String × β)
  | [], key, v => [(key, v)]
  | (k, v0) :: rest, key, v =>
      if k = key then (key, v) :: rest else (k, v0) :: assocSet rest key v

/-- Go `delete(m, key)`: remove the entry at `key`, if present. -/
def assocDel {β : Type} : List (String × β) → String → List (String × β)
  | [], _ => []
  | (k, v) :: rest, key => if k = key then rest else (k, v) :: assocDel rest key

/-- Insert-or-overwrite on the inner `map[string]namedListener`, keyed by
listener name. -/
def lnsSet {α : Type} (nl : NamedListener α) : List (NamedListener α) → List (NamedListener α)
  | [] => [nl]
  | x :: xs => if x.Name = nl.Name then nl :: xs else x :: lnsSet nl xs

/-- Go `delete(listeners, listenerName)` on the inner map. -/
def lnsDel {α : Type} (n : String) : List (NamedListener α) → List (NamedListener α)
  | [] => []
  | x :: xs => if x.Name = n then lnsDel n xs else x :: lnsDel n xs

/-- Ordering used by `sort.Stable(lns)` with `Less i j = Index i < Index j`;
a stable sort by this `Less` coincides with an insertion sort by `≤` on
`Index` (sequence numbers are unique in reachable states). -/
def lnLe {α : Type} (a b : NamedListener α) : Prop := a.Index ≤ b.Index

instance {α : Type} : DecidableRel (@lnLe α) := fun a b => Nat.decLe a.Index b.Index

instance {α : Type} : IsTotal (NamedListener α) (@lnLe α) :=
  ⟨fun a b => Nat.le_total a.Index b.Index⟩

instance {α : Type} : IsTrans (NamedListener α) (@lnLe α) :=
  ⟨fun _ _ _ => Nat.le_trans⟩

/-- Go `sort.Stable` on a `namedListeners` slice. -/
def sortStable {α : Type} (l : List (NamedListener α)) : List (NamedListener α) :=
  l.insertionSort lnLe

/-- Go struct `emitter` (impl.go).  `evtm` is the authoritative registry,
`evtv` the published snapshot, `eidx` the atomic sequence counter.
`onceFlags` records which once-wrapper flags have been compare-and-swapped
to 1, and `nextOnceId` allocates fresh flag identities for `Once`. -/
structure Emitter (α : Type) where
  evtm : List (String × List (NamedListener α))
  evtv : List (String × List (NamedListener α))
  eidx : Nat
  onceFlags : List Nat
  nextOnceId : Nat

/-- Go `New()`: empty registry, `storeEvents(nil)`. -/
def New (α : Type) : Emitter α :=
  { evtm := [], evtv := [], eidx := 0, onceFlags := [], nextOnceId := 0 }

/-- Go `updateEvents`: rebuild the snapshot from the registry, sorting the
listeners of every event stably by sequence number. -/
def updateEvents {α : Type} (evtm : List (String × List (NamedListener α))) :
    List (String × List (NamedListener α)) :=
  evtm.map (fun p => (p.1, sortStable p.2))

/-- Snapshot lookup `evts[event]`: a missing key yields the empty (nil)
listener slice. -/
def snapLns {α : Type} (evtv : List (String × List (NamedListener α))) (event : String) :
    List (NamedListener α) :=
  (assocFind evtv event).getD []

/-- Go `emitter.On(event, listenerName, listener)`.  The listener argument
is `Option`al (`none` models a nil interface).  The second component models
a panic: `some msg` means the call panicked with `msg` after performing no
mutation. -/
def On {α : Type} (s : Emitter α) (event listenerName : String) (listener : Option (Ln α)) :
    Emitter α × Option String :=
  if event = "" then (s, some "the event is empty")
  else if listenerName = "" then (s, some "the listener name is empty")
  else
    match listener with
    | none => (s, some "the listener is nil")
    | some ln =>
      let nl : NamedListener α := { Name := listenerName, Index := (s.eidx + 1) % U64, ln := ln }
      let evtm :=
        match assocFind s.evtm event with
        | none => assocSet s.evtm event [nl]
        | some listeners => assocSet s.evtm event (lnsSet nl listeners)
      ({ s with evtm := evtm, evtv := updateEvents evtm, eidx := (s.eidx + 1) % U64 }, none)

/-- Go `emitter.Off(event, listenerName)`: the three-way removal contract. -/
def Off {α : Type} (s : Emitter α) (event listenerName : String) : Emitter α :=
  if event = "" then { s with evtm := [], evtv := [] }
  else if listenerName = "" then
    match assocFind s.evtm event with
    | some _ =>
        let m := assocDel s.evtm event
        { s with evtm := m, evtv := updateEvents m }
    | none => s
  else
    match assocFind s.evtm event with
    | some listeners =>
        if listeners.any (fun nl => nl.Name == listenerName) then
          let listeners' := lnsDel listenerName listeners
          let m :=
            if listeners'.isEmpty then assocDel s.evtm event
            else assocSet s.evtm event listeners'
          { s with evtm := m, evtv := updateEvents m }
        else s
    | none => s

/-- Go `emitter.Once(event, listenerName, listener)`: register the listener
wrapped in a fresh `onceListener` (fresh atomic flag, same name). -/
def Once {α : Type} (s : Emitter α) (event listenerName : String) (listener : Ln α) :
    Emitter α × Option String :=
  On { s with nextOnceId := s.nextOnceId + 1 } event listenerName
    (some (Ln.once s.nextOnceId listenerName listener))

/-- Go `emitter.Events()`: the event names of the current snapshot. -/
def Events {α : Type} (s : Emitter α) : List String := s.evtv.map (fun p => p.1)

/-- Listeners of one event, in snapshot order, as returned by the slice
variant `eventManager.Listeners` (the ordered `[]Listener` interface). -/
def Listeners {α : Type} (s : Emitter α) (event : String) : List (Ln α) :=
  (snapLns s.evtv event).map (fun nl => nl.ln)

/-- Trace entries of a dispatch: `call` records the emit loop invoking the
`EventCallback` of the named listener; `forward` records a once-wrapper
(identified by its flag `id`) forwarding to its wrapped listener. -/
inductive Tr (α : Type) where
  | call (name event : String) (args : List α)
  | forward (id : Nat) (event : String) (args : List α)
deriving DecidableEq

/-- Invocation of one listener value: `listener.EventCallback(event, data...)`.
A plain listener runs its callback.  A once-wrapper performs the atomic
compare-and-set on its flag; on success it first deregisters itself by name
via `Off` and then forwards to the wrapped listener, otherwise it is a
no-op.  Returns the new emitter state, the forward trace, and the panic
outcome. -/
def EventCallback {α : Type} :
    Emitter α → Ln α → String → List α → Emitter α × List (Tr α) × Option String
  | s, .func cb, event, args => (s, [], cb event args)
  | s, .once id lnname inner, event, args =>
      if id ∈ s.onceFlags then (s, [], none)
      else
        let s2 := Off { s with onceFlags := id :: s.onceFlags } event lnname
        let r := EventCallback s2 inner event args
        (r.1, Tr.forward id event args :: r.2.1, r.2.2)

/-- Loop body of `emitter.Emit`: invoke each listener of the snapshot slice
in order; a panic aborts the remaining iterations and propagates. -/
def emitLoop {α : Type} :
    Emitter α → List (NamedListener α) → String → List α → Emitter α × List (Tr α) × Option String
  | s, [], _, _ => (s, [], none)
  | s, nl :: rest, event, args =>
      let r := EventCallback s nl.ln event args
      match r.2.2 with
      | some msg => (r.1, Tr.call nl.Name event args :: r.2.1, some msg)
      | none =>
          let r2 := emitLoop r.1 rest event args
          (r2.1, Tr.call nl.Name event args :: (r.2.1 ++ r2.2.1), r2.2.2)

/-- Go `emitter.Emit(event, data...)`: load the snapshot once and run the
listener slice of `event` synchronously. -/
def Emit {α : Type} (s : Emitter α) (event : String) (args : List α) :
    Emitter α × List (Tr α) × Option String :=
  emitLoop s (snapLns s.evtv event) event args

/-- Observable outcome of one asynchronous dispatch task: whether it called
`wg.Done()`, the `(event, listenerName)` pair logged by the recovery path
(the two format arguments of the diagnostic), and any panic escaping the
task. -/
structure TaskOutcome where
  doneSignaled : Bool
  logged : Option (String × String)
  escaped : Option String

/-- Go `emitter.emitAsync` together with its deferred `asyncDone`: run the
callback, then signal `wg.Done()` and `recover()` any panic, logging the
event and listener names. -/
def emitAsyncTask {α : Type} (s : Emitter α) (nl : NamedListener α) (event : String)
    (args : List α) : Emitter α × List (Tr α) × TaskOutcome :=
  let r := EventCallback s nl.ln event args
  (r.1, r.2.1,
    { doneSignaled := true
      logged := (r.2.2).map (fun _ => (event, nl.Name))
      escaped := none })

/-- Spawn loop of `EmitAsync`: one task per listener (tasks are modelled in
spawn order; each task is an atomic unit whose local control flow does not
depend on the interleaving). -/
def emitAsyncLoop {α : Type} :
    Emitter α → List (NamedListener α) → String → List α →
      Emitter α × List (Tr α) × List TaskOutcome
  | s, [], _, _ => (s, [], [])
  | s, nl :: rest, event, args =>
      let r := emitAsyncTask s nl event args
      let r2 := emitAsyncLoop r.1 rest event args
      (r2.1, r.2.1 ++ r2.2.1, r.2.2 :: r2.2.2)

/-- Result of `EmitAsync`: final state, dispatch trace, the `wg.Add` count,
and the per-task outcomes. -/
structure AsyncResult (α : Type) where
  state : Emitter α
  trace : List (Tr α)
  counter : Nat
  outcomes : List TaskOutcome

/-- Go `emitter.EmitAsync(event, data...)`: load the snapshot, `wg.Add` the
listener count, spawn one task per listener, return the wait handle. -/
def EmitAsync {α : Type} (s : Emitter α) (event : String) (args : List α) : AsyncResult α :=
  let listeners := snapLns s.evtv event
  let r := emitAsyncLoop s listeners event args
  { state := r.1, trace := r.2.1, counter := listeners.length, outcomes := r.2.2 }

/-- The wait handle `wg.Wait()` returns exactly when the number of
`wg.Done()` signals reaches the `wg.Add` count. -/
def WaitReturns (counter : Nat) (outcomes : List TaskOutcome) : Prop :=
  (outcomes.filter (fun o => o.doneSignaled)).length = counter

/-- Public operations of the emitter, for quantifying over call sequences. -/
inductive Op (α : Type) where
  | register (event listenerName : String) (listener : Option (Ln α))
  | registerOnce (event listenerName : String) (listener : Ln α)
  | unregister (event listenerName : String)
  | emit (event : String) (args : List α)
  | emitAsync (event : String) (args : List α)

/-- State transition of one public operation (panics of `On` abort without
mutating, so the state component is kept either way). -/
def applyOp {α : Type} (s : Emitter α) : Op α → Emitter α
  | .register e n l => (On s e n l).1
  | .registerOnce e n l => (Once s e n l).1
  | .unregister e n => Off s e n
  | .emit e a => (Emit s e a).1
  | .emitAsync e a => (EmitAsync s e a).state

/-- State after a sequence of public operations. -/
def applyOps {α : Type} (s : Emitter α) (ops : List (Op α)) : Emitter α :=
  ops.foldl applyOp s

/-- Dispatch trace produced by one public operation. -/
def opTrace {α : Type} (s : Emitter α) : Op α → List (Tr α)
  | .emit e a => (Emit s e a).2.1
  | .emitAsync e a => (EmitAsync s e a).trace
  | _ => []

/-- Concatenated dispatch trace of a sequence of public operations. -/
def runTrace {α : Type} : Emitter α → List (Op α) → List (Tr α)
  | _, [] => []
  | s, op :: ops => opTrace s op ++ runTrace (applyOp s op) ops

/-- Outer invocations recorded in a trace: which listener was called by the
emit loop with which event name and argument list. -/
def callsOf {α : Type} : List (Tr α) → List (String × String × List α)
  | [] => []
  | Tr.call n e a :: rest => (n, e, a) :: callsOf rest
  | Tr.forward _ _ _ :: rest => callsOf rest

/-- Number of forwards of the once-wrapper with flag `id` in a trace. -/
def countForward {α : Type} (id : Nat) : List (Tr α) → Nat
  | [] => 0
  | Tr.forward i _ _ :: rest => (if i = id then 1 else 0) + countForward id rest
  | Tr.call _ _ _ :: rest => countForward id rest

/-- Indicator of the once flag `id` being set in state `s`. -/
def flagInd {α : Type} (id : Nat) (s : Emitter α) : Nat :=
  if id ∈ s.onceFlags then 1 else 0

/-- Reachability invariant of the emitter state: map keys are unique, no
event has an empty listener set, sequence numbers are bounded by the
counter and unique per event, and the published snapshot is the sorted
image of the registry. -/
structure Inv {α : Type} (s : Emitter α) : Prop where
  events_nodup : (s.evtm.map (fun p => p.1)).Nodup
  names_nodup : ∀ p ∈ s.evtm, (p.2.map NamedListener.Name).Nodup
  lns_ne_nil : ∀ p ∈ s.evtm, p.2 ≠ []
  idx_le : ∀ p ∈ s.evtm, ∀ nl ∈ p.2, nl.Index ≤ s.eidx
  idx_nodup : ∀ p ∈ s.evtm, (p.2.map NamedListener.Index).Nodup
  snap : s.evtv = updateEvents s.evtm

/-- Pattern-matching reference matcher of the library (function
`matchEvent` of the `NewCommon` example), over Go strings modelled as
character lists: full match on `*`, then suffix match, then prefix match,
then exact equality. -/
def matchEvent (matchedEvent emittedEvent : List Char) : Bool :=
  if matchedEvent = ['*'] then true
  else if ['*'].isPrefixOf matchedEvent && (matchedEvent.drop 1).isSuffixOf emittedEvent then
    true
  else if ['*'].isSuffixOf matchedEvent && matchedEvent.dropLast.isPrefixOf emittedEvent then
    true
  else matchedEvent == emittedEvent

/-- Go struct `eventManager` (the snapshot of the pattern-matching
variant): an optional matcher and the event/pattern table. -/
structure eventManager (α : Type) where
  matchEvent : Option (List Char → List Char → Bool)
  events : List (List Char × List (NamedListener α))

/-- Pattern-table lookup, with character-list keys. -/
def assocFindP {α : Type} :
    List (List Char × List (NamedListener α)) → List Char → Option (List (NamedListener α))
  | [], _ => none
  | (k, v) :: rest, key => if k = key then some v else assocFindP rest key

/-- Invocation trace of `eventManager.Emit`: in exact mode the listeners of
the event key; in pattern mode the listeners of every registered pattern
accepted by the matcher (the resolution of the emitted name, recorded as
`call` entries with the pattern-registered listener names). -/
def EmitM {α : Type} (m : eventManager α) (event : List Char) (args : List α) : List (Tr α) :=
  match m.matchEvent with
  | none =>
      ((assocFindP m.events event).getD []).map
        (fun nl => Tr.call nl.Name (String.mk event) args)
  | some f =>
      (m.events.filter (fun p => f p.1 event)).flatMap
        (fun p => p.2.map (fun nl => Tr.call nl.Name (String.mk event) args))

/-- Listeners of one event in the pattern-variant snapshot, in slice order
(`eventManager.Listeners`). -/
def ListenersM {α : Type} (m : eventManager α) (event : List Char) : List (Ln α) :=
  ((assocFindP m.events event).getD []).map (fun nl => nl.ln)

theorem assocFind_mem {β : Type} {l : List (String × β)} {k : String} {v : β}
    (h : assocFind l k = some v) : (k, v) ∈ l := by
  induction l with
  | nil => simp [assocFind] at h
  | cons p rest ih =>
      obtain ⟨k0, v0⟩ := p
      by_cases hk : k0 = k
      · subst hk
        simp [assocFind] at h
        simp [h]
      · simp [assocFind, hk] at h
        exact List.mem_cons_of_mem _ (ih h)

theorem assocFind_eq_none_iff {β : Type} {l : List (String × β)} {k : String} :
    assocFind l k = none ↔ k ∉ l.map Prod.fst := by
  induction l with
  | nil => simp [assocFind]
  | cons p rest ih =>
      obtain ⟨k0, v0⟩ := p
      by_cases hk : k0 = k
      · subst hk; simp [assocFind]
      · simp [assocFind, hk, ih, Ne.symm hk]

theorem assocSet_mem {β : Type} {l : List (String × β)} {k : String} {v : β} :
    ∀ p ∈ assocSet l k v, p = (k, v) ∨ p ∈ l := by
  induction l with
  | nil => simp [assocSet]
  | cons q rest ih =>
      obtain ⟨k0, v0⟩ := q
      intro p hp
      by_cases hk : k0 = k
      · simp [assocSet, hk] at hp
        rcases hp with hp | hp
        · exact Or.inl hp
        · exact Or.inr (List.mem_cons_of_mem _ hp)
      · simp only [assocSet, if_neg hk, List.mem_cons] at hp
        rcases hp with hp | hp
        · exact Or.inr (by simp [hp])
        · rcases ih p hp with h | h
          · exact Or.inl h
          · exact Or.inr (List.mem_cons_of_mem _ h)

theorem assocSet_find_self {β : Type} {l : List (String × β)} {k : String} {v : β} :
    assocFind (assocSet l k v) k = some v := by
  induction l with
  | nil => simp [assocSet, assocFind]
  | cons q rest ih =>
      obtain ⟨k0, v0⟩ := q
      by_cases hk : k0 = k
      · simp [assocSet, hk, assocFind]
      · simp [assocSet, hk, assocFind, ih]

theorem assocSet_find_ne {β : Type} {l : List (String × β)} {k k' : String} {v : β}
    (h : k' ≠ k) : assocFind (assocSet l k v) k' = assocFind l k' := by
  induction l with
  | nil => simp [assocSet, assocFind, Ne.symm h]
  | cons q rest ih =>
      obtain ⟨k0, v0⟩ := q
      by_cases hk : k0 = k
      · subst hk
        simp [assocSet, assocFind, Ne.symm h]
      · simp [assocSet, hk, assocFind, ih]

theorem assocSet_keys_of_mem {β : Type} {l : List (String × β)} {k : String} {v : β}
    (h : k ∈ l.map Prod.fst) : (assocSet l k v).map Prod.fst = l.map Prod.fst := by
  induction l with
  | nil => simp at h
  | cons q rest ih =>
      obtain ⟨k0, v0⟩ := q
      by_cases hk : k0 = k
      · simp [assocSet, hk]
      · simp only [List.map_cons, List.mem_cons] at h
        rcases h with h | h
        · exact absurd h.symm hk
        · simp [assocSet, hk, ih h]

theorem assocSet_keys_of_not_mem {β : Type} {l : List (String × β)} {k : String} {v : β}
    (h : k ∉ l.map Prod.fst) : (assocSet l k v).map Prod.fst = l.map Prod.fst ++ [k] := by
  induction l with
  | nil => simp [assocSet]
  | cons q rest ih =>
      obtain ⟨k0, v0⟩ := q
      simp only [List.map_cons, List.mem_cons] at h
      push_neg at h
      simp [assocSet, Ne.symm h.1, ih h.2]

theorem assocDel_sublist {β : Type} {l : List (String × β)} {k : String} :
    List.Sublist (assocDel l k) l := by
  induction l with
  | nil => simp [assocDel]
  | cons q rest ih =>
      obtain ⟨k0, v0⟩ := q
      by_cases hk : k0 = k
      · simpa [assocDel, hk] using List.sublist_cons_self _ _
      · simpa [assocDel, hk] using List.Sublist.cons₂ (k0, v0) ih

theorem assocDel_find_self {β : Type} {l : List (String × β)} {k : String}
    (hnd : (l.map Prod.fst).Nodup) : assocFind (assocDel l k) k = none := by
  induction l with
  | nil => simp [assocDel, assocFind]
  | cons q rest ih =>
      obtain ⟨k0, v0⟩ := q
      simp only [List.map_cons, List.nodup_cons] at hnd
      by_cases hk : k0 = k
      · subst hk
        simp only [assocDel, if_pos rfl]
        exact assocFind_eq_none_iff.2 hnd.1
      · simp [assocDel, hk, assocFind, ih hnd.2]

theorem assocDel_find_ne {β : Type} {l : List (String × β)} {k k' : String}
    (h : k' ≠ k) : assocFind (assocDel l k) k' = assocFind l k' := by
  induction l with
  | nil => simp [assocDel]
  | cons q rest ih =>
      obtain ⟨k0, v0⟩ := q
      by_cases hk : k0 = k
      · subst hk
        simp [assocDel, assocFind, Ne.symm h]
      · simp [assocDel, hk, assocFind, ih]

theorem lnsSet_mem {α : Type} {nl : NamedListener α} {l : List (NamedListener α)} :
    ∀ x ∈ lnsSet nl l, x = nl ∨ x ∈ l := by
  induction l with
  | nil => simp [lnsSet]
  | cons y ys ih =>
      intro x hx
      by_cases hn : y.Name = nl.Name
      · simp [lnsSet, hn] at hx
        rcases hx with hx | hx
        · exact Or.inl hx
        · exact Or.inr (List.mem_cons_of_mem _ hx)
      · simp only [lnsSet, if_neg hn, List.mem_cons] at hx
        rcases hx with hx | hx
        · exact Or.inr (by simp [hx])
        · rcases ih x hx with h | h
          · exact Or.inl h
          · exact Or.inr (List.mem_cons_of_mem _ h)

theorem lnsSet_self_mem {α : Type} {nl : NamedListener α} {l : List (NamedListener α)} :
    nl ∈ lnsSet nl l := by
  induction l with
  | nil => simp [lnsSet]
  | cons y ys ih =>
      by_cases hn : y.Name = nl.Name
      · simp [lnsSet, hn]
      · simp [lnsSet, hn, ih]

theorem lnsSet_ne_nil {α : Type} {nl : NamedListener α} {l : List (NamedListener α)} :
    lnsSet nl l ≠ [] := by
  cases l with
  | nil => simp [lnsSet]
  | cons y ys =>
      by_cases hn : y.Name = nl.Name <;> simp [lnsSet, hn]

theorem lnsSet_names_nodup {α : Type} {nl : NamedListener α} {l : List (NamedListener α)}
    (h : (l.map NamedListener.Name).Nodup) :
    ((lnsSet nl l).map NamedListener.Name).Nodup := by
  induction l with
  | nil => simp [lnsSet]
  | cons y ys ih =>
      simp only [List.map_cons, List.nodup_cons] at h
      by_cases hn : y.Name = nl.Name
      · simp only [lnsSet, if_pos hn, List.map_cons, List.nodup_cons]
        exact ⟨hn ▸ h.1, h.2⟩
      · simp only [lnsSet, if_neg hn, List.map_cons, List.nodup_cons]
        refine ⟨fun hc => ?_, ih h.2⟩
        rcases List.mem_map.1 hc with ⟨x, hx, hxn⟩
        rcases lnsSet_mem x hx with rfl | hx'
        · exact hn hxn.symm
        · exact h.1 (hxn ▸ List.mem_map_of_mem _ hx')

theorem lnsSet_idx_nodup {α : Type} {nl : NamedListener α} {l : List (NamedListener α)}
    (hb : ∀ x ∈ l, x.Index < nl.Index) (h : (l.map NamedListener.Index).Nodup) :
    ((lnsSet nl l).map NamedListener.Index).Nodup := by
  induction l with
  | nil => simp [lnsSet]
  | cons y ys ih =>
      simp only [List.map_cons, List.nodup_cons] at h
      by_cases hn : y.Name = nl.Name
      · simp only [lnsSet, if_pos hn, List.map_cons, List.nodup_cons]
        refine ⟨fun hc => ?_, h.2⟩
        rcases List.mem_map.1 hc with ⟨x, hx, hxn⟩
        exact absurd hxn (Nat.ne_of_lt (hb x (List.mem_cons_of_mem _ hx)))
      · simp only [lnsSet, if_neg hn, List.map_cons, List.nodup_cons]
        refine ⟨fun hc => ?_, ih (fun x hx => hb x (List.mem_cons_of_mem _ hx)) h.2⟩
        rcases List.mem_map.1 hc with ⟨x, hx, hxn⟩
        rcases lnsSet_mem x hx with rfl | hx'
        · exact absurd hxn.symm (Nat.ne_of_lt (hb y (List.mem_cons_self _ _)))
        · exact h.1 (hxn ▸ List.mem_map_of_mem _ hx')

theorem lnsSet_length_of_contains {α : Type} {nl : NamedListener α}
    {l : List (NamedListener α)} (h : ∃ x ∈ l, x.Name = nl.Name) :
    (lnsSet nl l).length = l.length := by
  induction l with
  | nil => simp at h
  | cons y ys ih =>
      by_cases hn : y.Name = nl.Name
      · simp [lnsSet, hn]
      · rcases h with ⟨x, hx, hxn⟩
        rcases List.mem_cons.1 hx with rfl | hx'
        · exact absurd hxn hn
        · simp [lnsSet, hn, ih ⟨x, hx', hxn⟩]

theorem lnsSet_filter_self {α : Type} {nl : NamedListener α} {l : List (NamedListener α)}
    (h : (l.map NamedListener.Name).Nodup) :
    (lnsSet nl l).filter (fun x => decide (x.Name = nl.Name)) = [nl] := by
  induction l with
  | nil => simp [lnsSet]
  | cons y ys ih =>
      simp only [List.map_cons, List.nodup_cons] at h
      by_cases hn : y.Name = nl.Name
      · simp only [lnsSet, if_pos hn, List.filter_cons, decide_eq_true_eq, if_pos rfl]
        have : ∀ x ∈ ys, ¬(x.Name = nl.Name) := by
          intro x hx hc
          exact h.1 (hn ▸ hc ▸ List.mem_map_of_mem _ hx)
        have : ys.filter (fun x => decide (x.Name = nl.Name)) = [] := by
          refine List.filter_eq_nil_iff.2 (fun x hx => ?_)
          simpa using this x hx
        simp [this]
      · simp only [lnsSet, if_neg hn, List.filter_cons, decide_eq_true_eq, if_neg hn]
        exact ih h.2

theorem lnsDel_sublist {α : Type} {n : String} {l : List (NamedListener α)} :
    List.Sublist (lnsDel n l) l := by
  induction l with
  | nil => simp [lnsDel]
  | cons y ys ih =>
      by_cases hn : y.Name = n
      · simpa [lnsDel, hn] using List.Sublist.trans ih (List.sublist_cons_self _ _)
      · simpa [lnsDel, hn] using List.Sublist.cons₂ y ih

theorem lnsDel_name_ne {α : Type} {n : String} {l : List (NamedListener α)} :
    ∀ x ∈ lnsDel n l, x.Name ≠ n := by
  induction l with
  | nil => simp [lnsDel]
  | cons y ys ih =>
      intro x hx
      by_cases hn : y.Name = n
      · exact ih x (by simpa [lnsDel, hn] using hx)
      · rcases List.mem_cons.1 (by simpa [lnsDel, hn] using hx) with rfl | hx'
        · exact hn
        · exact ih x hx'

theorem lnsDel_eq_self {α : Type} {n : String} {l : List (NamedListener α)}
    (h : ∀ x ∈ l, x.Name ≠ n) : lnsDel n l = l := by
  induction l with
  | nil => simp [lnsDel]
  | cons y ys ih =>
      have hy := h y (List.mem_cons_self _ _)
      simp [lnsDel, hy, ih (fun x hx => h x (List.mem_cons_of_mem _ hx))]

theorem lnsDel_length {α : Type} {n : String} {l : List (NamedListener α)}
    (hnd : (l.map NamedListener.Name).Nodup)
    (h : l.any (fun x => x.Name == n) = true) : (lnsDel n l).length + 1 = l.length := by
  induction l with
  | nil => simp at h
  | cons y ys ih =>
      simp only [List.map_cons, List.nodup_cons] at hnd
      by_cases hn : y.Name = n
      · have : ∀ x ∈ ys, x.Name ≠ n := by
          intro x hx hc
          exact hnd.1 (hn ▸ hc ▸ List.mem_map_of_mem _ hx)
        simp [lnsDel, hn, lnsDel_eq_self this]
      · simp only [List.any_cons, Bool.or_eq_true, beq_iff_eq] at h
        rcases h with h | h
        · exact absurd h hn
        · simp [lnsDel, hn, ← ih hnd.2 h]

theorem sortStable_perm {α : Type} (l : List (NamedListener α)) :
    List.Perm (sortStable l) l :=
  List.perm_insertionSort _ l

theorem sortStable_sorted {α : Type} (l : List (NamedListener α)) :
    List.Pairwise lnLe (sortStable l) :=
  List.sorted_insertionSort _ l

theorem sortStable_idx_nodup {α : Type} {l : List (NamedListener α)}
    (h : (l.map NamedListener.Index).Nodup) :
    ((sortStable l).map NamedListener.Index).Nodup :=
  (List.Perm.nodup_iff ((sortStable_perm l).map _)).2 h

theorem sortStable_pairwise_lt {α : Type} {l : List (NamedListener α)}
    (h : (l.map NamedListener.Index).Nodup) :
    ((sortStable l).map NamedListener.Index).Pairwise (· < ·) := by
  have hle : (sortStable l).Pairwise (fun a b => a.Index ≤ b.Index) := sortStable_sorted l
  have hne : (sortStable l).Pairwise (fun a b => a.Index ≠ b.Index) := by
    have := sortStable_idx_nodup h
    exact (List.pairwise_map.1 this)
  exact List.pairwise_map.2 ((hle.and hne).imp (fun hx => lt_of_le_of_ne hx.1 hx.2))

theorem updateEvents_find {α : Type} {m : List (String × List (NamedListener α))}
    {k : String} : assocFind (updateEvents m) k = (assocFind m k).map sortStable := by
  induction m with
  | nil => simp [updateEvents, assocFind]
  | cons p rest ih =>
      obtain ⟨k0, v0⟩ := p
      by_cases hk : k0 = k
      · simp [updateEvents, assocFind, hk]
      · simpa [updateEvents, assocFind, hk] using ih

theorem updateEvents_keys {α : Type} {m : List (String × List (NamedListener α))} :
    (updateEvents m).map Prod.fst = m.map Prod.fst := by
  induction m with
  | nil => simp [updateEvents]
  | cons p rest ih =>
      simpa [updateEvents] using ih

theorem snapLns_eq {α : Type} {s : Emitter α} (hs : Inv s) (event : String) :
    snapLns s.evtv event = sortStable ((assocFind s.evtm event).getD []) := by
  unfold snapLns
  rw [hs.snap, updateEvents_find]
  cases h : assocFind s.evtm event with
  | none => simp [sortStable, List.insertionSort]
  | some lns => simp

theorem On_empty_event {α : Type} (s : Emitter α) (n : String) (l : Option (Ln α)) :
    On s "" n l = (s, some "the event is empty") := by
  simp [On]

theorem On_empty_name {α : Type} (s : Emitter α) {e : String} (he : e ≠ "")
    (l : Option (Ln α)) : On s e "" l = (s, some "the listener name is empty") := by
  simp [On, he]

theorem On_nil_listener {α : Type} (s : Emitter α) {e n : String} (he : e ≠ "") (hn : n ≠ "") :
    On s e n none = (s, some "the listener is nil") := by
  simp [On, he, hn]

theorem On_eq_new {α : Type} {s : Emitter α} {e n : String} (he : e ≠ "") (hn : n ≠ "")
    (ln : Ln α) (hf : assocFind s.evtm e = none) :
    On s e n (some ln) =
      ({ s with
          evtm := assocSet s.evtm e [⟨n, (s.eidx + 1) % U64, ln⟩]
          evtv := updateEvents (assocSet s.evtm e [⟨n, (s.eidx + 1) % U64, ln⟩])
          eidx := (s.eidx + 1) % U64 }, none) := by
  simp [On, he, hn, hf]

theorem On_eq_add {α : Type} {s : Emitter α} {e n : String} (he : e ≠ "") (hn : n ≠ "")
    (ln : Ln α) {lns : List (NamedListener α)} (hf : assocFind s.evtm e = some lns) :
    On s e n (some ln) =
      ({ s with
          evtm := assocSet s.evtm e (lnsSet ⟨n, (s.eidx + 1) % U64, ln⟩ lns)
          evtv := updateEvents (assocSet s.evtm e (lnsSet ⟨n, (s.eidx + 1) % U64, ln⟩ lns))
          eidx := (s.eidx + 1) % U64 }, none) := by
  simp [On, he, hn, hf]

theorem Off_clear_eq {α : Type} (s : Emitter α) (n : String) :
    Off s "" n = { s with evtm := [], evtv := [] } := by
  simp [Off]

theorem Off_missing_eq {α : Type} {s : Emitter α} {e : String} (n : String) (he : e ≠ "")
    (hf : assocFind s.evtm e = none) : Off s e n = s := by
  by_cases hn : n = "" <;> simp [Off, he, hn, hf]

theorem Off_event_eq {α : Type} {s : Emitter α} {e : String} (he : e ≠ "")
    {lns : List (NamedListener α)} (hf : assocFind s.evtm e = some lns) :
    Off s e "" =
      { s with evtm := assocDel s.evtm e, evtv := updateEvents (assocDel s.evtm e) } := by
  simp [Off, he, hf]

theorem Off_noName_eq {α : Type} {s : Emitter α} {e n : String} (he : e ≠ "") (hn : n ≠ "")
    {lns : List (NamedListener α)} (hf : assocFind s.evtm e = some lns)
    (ha : lns.any (fun nl => nl.Name == n) = false) : Off s e n = s := by
  simp [Off, he, hn, hf, ha]

theorem Off_del_eq {α : Type} {s : Emitter α} {e n : String} (he : e ≠ "") (hn : n ≠ "")
    {lns : List (NamedListener α)} (hf : assocFind s.evtm e = some lns)
    (ha : lns.any (fun nl => nl.Name == n) = true) :
    Off s e n =
      { s with
          evtm :=
            if (lnsDel n lns).isEmpty then assocDel s.evtm e
            else assocSet s.evtm e (lnsDel n lns)
          evtv :=
            updateEvents
              (if (lnsDel n lns).isEmpty then assocDel s.evtm e
               else assocSet s.evtm e (lnsDel n lns)) } := by
  simp [Off, he, hn, hf, ha]

theorem Off_onceFlags {α : Type} (s : Emitter α) (e n : String) :
    (Off s e n).onceFlags = s.onceFlags := by
  unfold Off
  repeat' split
  all_goals rfl

theorem Off_eidx {α : Type} (s : Emitter α) (e n : String) : (Off s e n).eidx = s.eidx := by
  unfold Off
  repeat' split
  all_goals rfl

theorem Off_nextOnceId {α : Type} (s : Emitter α) (e n : String) :
    (Off s e n).nextOnceId = s.nextOnceId := by
  unfold Off
  repeat' split
  all_goals rfl

theorem On_onceFlags {α : Type} (s : Emitter α) (e n : String) (l : Option (Ln α)) :
    (On s e n l).1.onceFlags = s.onceFlags := by
  unfold On
  repeat' split
  all_goals rfl

theorem On_eidx_le {α : Type} (s : Emitter α) (e n : String) (l : Option (Ln α)) :
    (On s e n l).1.eidx ≤ s.eidx + 1 := by
  unfold On
  repeat' split
  all_goals dsimp only
  all_goals first
    | exact Nat.le_succ _
    | exact Nat.mod_le _ _

theorem Inv.withFlags {α : Type} {s : Emitter α} (hs : Inv s) (fl : List Nat) :
    Inv { s with onceFlags := fl } :=
  ⟨hs.events_nodup, hs.names_nodup, hs.lns_ne_nil, hs.idx_le, hs.idx_nodup, hs.snap⟩

theorem Inv.withNextId {α : Type} {s : Emitter α} (hs : Inv s) (m : Nat) :
    Inv { s with nextOnceId := m } :=
  ⟨hs.events_nodup, hs.names_nodup, hs.lns_ne_nil, hs.idx_le, hs.idx_nodup, hs.snap⟩

theorem Inv_New (α : Type) : Inv (New α) := by
  refine ⟨?_, ?_, ?_, ?_, ?_, ?_⟩ <;> simp [New, updateEvents]

theorem Off_inv {α : Type} {s : Emitter α} (hs : Inv s) (e n : String) :
    Inv (Off s e n) := by
  by_cases he : e = ""
  · subst he
    rw [Off_clear_eq]
    exact ⟨by simp, by simp, by simp, by simp, by simp, by simp [updateEvents]⟩
  cases hf : assocFind s.evtm e with
  | none => rw [Off_missing_eq n he hf]; exact hs
  | some lns =>
      have hdel : Inv
          { s with
              evtm := assocDel s.evtm e
              evtv := updateEvents (assocDel s.evtm e) } := by
        refine ⟨?_, ?_, ?_, ?_, ?_, rfl⟩
        · exact hs.events_nodup.sublist (assocDel_sublist.map _)
        · exact fun p hp => hs.names_nodup p (assocDel_sublist.subset hp)
        · exact fun p hp => hs.lns_ne_nil p (assocDel_sublist.subset hp)
        · exact fun p hp => hs.idx_le p (assocDel_sublist.subset hp)
        · exact fun p hp => hs.idx_nodup p (assocDel_sublist.subset hp)
      by_cases hn : n = ""
      · subst hn
        rw [Off_event_eq he hf]
        exact hdel
      cases ha : lns.any (fun nl => nl.Name == n) with
      | false => rw [Off_noName_eq he hn hf ha]; exact hs
      | true =>
          rw [Off_del_eq he hn hf ha]
          cases hemp : (lnsDel n lns).isEmpty with
          | true => simpa [hemp] using hdel
          | false =>
              have hmem := assocFind_mem hf
              have hkey : e ∈ s.evtm.map Prod.fst := List.mem_map_of_mem _ hmem
              have hsub : ∀ p ∈ assocSet s.evtm e (lnsDel n lns),
                  p = (e, lnsDel n lns) ∨ p ∈ s.evtm := assocSet_mem
              simp only [hemp, if_false, Bool.false_eq_true]
              refine ⟨?_, ?_, ?_, ?_, ?_, rfl⟩
              · rw [assocSet_keys_of_mem hkey]; exact hs.events_nodup
              · intro p hp
                rcases hsub p hp with rfl | hp'
                · exact (hs.names_nodup _ hmem).sublist (lnsDel_sublist.map _)
                · exact hs.names_nodup p hp'
              · intro p hp
                rcases hsub p hp with rfl | hp'
                · simpa using (List.isEmpty_eq_false.1 hemp)
                · exact hs.lns_ne_nil p hp'
              · intro p hp
                rcases hsub p hp with rfl | hp'
                · exact fun nl hnl =>
                    hs.idx_le _ hmem nl (lnsDel_sublist.subset hnl)
                · exact hs.idx_le p hp'
              · intro p hp
                rcases hsub p hp with rfl | hp'
                · exact (hs.idx_nodup _ hmem).sublist (lnsDel_sublist.map _)
                · exact hs.idx_nodup p hp'

theorem On_inv {α : Type} {s : Emitter α} (hs : Inv s) (hlt : s.eidx + 1 < U64)
    (e n : String) (l : Option (Ln α)) : Inv (On s e n l).1 := by
  have hmod : (s.eidx + 1) % U64 = s.eidx + 1 := Nat.mod_eq_of_lt hlt
  by_cases he : e = ""
  · subst he; rw [On_empty_event]; exact hs
  by_cases hn : n = ""
  · subst hn; rw [On_empty_name s he l]; exact hs
  cases l with
  | none => rw [On_nil_listener s he hn]; exact hs
  | some ln =>
      cases hf : assocFind s.evtm e with
      | none =>
          rw [On_eq_new he hn ln hf]
          have hkey : e ∉ s.evtm.map Prod.fst := assocFind_eq_none_iff.1 hf
          have hsub : ∀ p ∈ assocSet s.evtm e [⟨n, (s.eidx + 1) % U64, ln⟩],
              p = (e, [⟨n, (s.eidx + 1) % U64, ln⟩]) ∨ p ∈ s.evtm := assocSet_mem
          refine ⟨?_, ?_, ?_, ?_, ?_, rfl⟩
          · rw [assocSet_keys_of_not_mem hkey]
            refine List.Nodup.append hs.events_nodup (List.nodup_singleton e) ?_
            simpa [List.disjoint_singleton] using hkey
          · intro p hp
            rcases hsub p hp with rfl | hp'
            · simp
            · exact hs.names_nodup p hp'
          · intro p hp
            rcases hsub p hp with rfl | hp'
            · simp
            · exact hs.lns_ne_nil p hp'
          · intro p hp
            rcases hsub p hp with rfl | hp'
            · intro nl hnl
              simp only [List.mem_singleton] at hnl
              subst hnl
              simp
            · exact fun nl hnl =>
                Nat.le_trans (hs.idx_le p hp' nl hnl) (by rw [hmod]; exact Nat.le_succ _)
          · intro p hp
            rcases hsub p hp with rfl | hp'
            · simp
            · exact hs.idx_nodup p hp'
      | some lns =>
          rw [On_eq_add he hn ln hf]
          have hmem := assocFind_mem hf
          have hkey : e ∈ s.evtm.map Prod.fst := List.mem_map_of_mem _ hmem
          have hsub : ∀ p ∈ assocSet s.evtm e (lnsSet ⟨n, (s.eidx + 1) % U64, ln⟩ lns),
              p = (e, lnsSet ⟨n, (s.eidx + 1) % U64, ln⟩ lns) ∨ p ∈ s.evtm := assocSet_mem
          have hb : ∀ x ∈ lns, x.Index < (⟨n, (s.eidx + 1) % U64, ln⟩ : NamedListener α).Index := by
            intro x hx
            simp only [hmod]
            exact Nat.lt_succ_of_le (hs.idx_le _ hmem x hx)
          refine ⟨?_, ?_, ?_, ?_, ?_, rfl⟩
          · rw [assocSet_keys_of_mem hkey]; exact hs.events_nodup
          · intro p hp
            rcases hsub p hp with rfl | hp'
            · exact lnsSet_names_nodup (hs.names_nodup _ hmem)
            · exact hs.names_nodup p hp'
          · intro p hp
            rcases hsub p hp with rfl | hp'
            · exact lnsSet_ne_nil
            · exact hs.lns_ne_nil p hp'
          · intro p hp
            rcases hsub p hp with rfl | hp'
            · intro nl hnl
              rcases lnsSet_mem nl hnl with rfl | hnl'
              · simp
              · exact Nat.le_trans (hs.idx_le _ hmem nl hnl')
                  (by rw [hmod]; exact Nat.le_succ _)
            · exact fun nl hnl =>
                Nat.le_trans (hs.idx_le p hp' nl hnl) (by rw [hmod]; exact Nat.le_succ _)
          · intro p hp
            rcases hsub p hp with rfl | hp'
            · exact lnsSet_idx_nodup hb (hs.idx_nodup _ hmem)
            · exact hs.idx_nodup p hp'

theorem EventCallback_inv {α : Type} (l : Ln α) :
    ∀ (s : Emitter α) (e : String) (a : List α), Inv s → Inv (EventCallback s l e a).1 := by
  induction l with
  | func cb => intro s e a hs; exact hs
  | once id0 lnname inner ih =>
      intro s e a hs
      by_cases hid : id0 ∈ s.onceFlags
      · simpa [EventCallback, hid] using hs
      · simp only [EventCallback, if_neg hid]
        exact ih _ e a (Off_inv (hs.withFlags _) e lnname)

theorem EventCallback_eidx {α : Type} (l : Ln α) :
    ∀ (s : Emitter α) (e : String) (a : List α), (EventCallback s l e a).1.eidx = s.eidx := by
  induction l with
  | func cb => intro s e a; rfl
  | once id0 lnname inner ih =>
      intro s e a
      by_cases hid : id0 ∈ s.onceFlags
      · simp [EventCallback, hid]
      · simp only [EventCallback, if_neg hid]
        rw [ih]
        exact Off_eidx _ e lnname

theorem emitLoop_inv {α : Type} (lns : List (NamedListener α)) :
    ∀ (s : Emitter α) (e : String) (a : List α), Inv s → Inv (emitLoop s lns e a).1 := by
  induction lns with
  | nil => intro s e a hs; exact hs
  | cons nl rest ih =>
      intro s e a hs
      simp only [emitLoop]
      cases hr : (EventCallback s nl.ln e a).2.2 with
      | some msg => simpa using EventCallback_inv nl.ln s e a hs
      | none => simpa using ih _ e a (EventCallback_inv nl.ln s e a hs)

theorem emitLoop_eidx {α : Type} (lns : List (NamedListener α)) :
    ∀ (s : Emitter α) (e : String) (a : List α), (emitLoop s lns e a).1.eidx = s.eidx := by
  induction lns with
  | nil => intro s e a; rfl
  | cons nl rest ih =>
      intro s e a
      simp only [emitLoop]
      cases hr : (EventCallback s nl.ln e a).2.2 with
      | some msg => simpa using EventCallback_eidx nl.ln s e a
      | none => simp; rw [ih, EventCallback_eidx]

theorem emitAsyncLoop_state {α : Type} (lns : List (NamedListener α)) :
    ∀ (s : Emitter α) (e : String) (a : List α),
      (emitAsyncLoop s lns e a).1 = (emitLoop s lns e a).1 ∨
        ∃ msg, (emitLoop s lns e a).2.2 = some msg := by
  induction lns with
  | nil => intro s e a; exact Or.inl rfl
  | cons nl rest ih =>
      intro s e a
      simp only [emitAsyncLoop, emitAsyncTask, emitLoop]
      cases hr : (EventCallback s nl.ln e a).2.2 with
      | some msg => exact Or.inr ⟨msg, by simp [hr]⟩
      | none =>
          rcases ih (EventCallback s nl.ln e a).1 e a with h | ⟨msg, h⟩
          · exact Or.inl (by simp [h])
          · exact Or.inr ⟨msg, by simp [h]⟩

theorem emitAsyncLoop_inv {α : Type} (lns : List (NamedListener α)) :
    ∀ (s : Emitter α) (e : String) (a : List α), Inv s → Inv (emitAsyncLoop s lns e a).1 := by
  induction lns with
  | nil => intro s e a hs; exact hs
  | cons nl rest ih =>
      intro s e a hs
      simp only [emitAsyncLoop, emitAsyncTask]
      exact ih _ e a (EventCallback_inv nl.ln s e a hs)

theorem emitAsyncLoop_eidx {α : Type} (lns : List (NamedListener α)) :
    ∀ (s : Emitter α) (e : String) (a : List α), (emitAsyncLoop s lns e a).1.eidx = s.eidx := by
  induction lns with
  | nil => intro s e a; rfl
  | cons nl rest ih =>
      intro s e a
      simp only [emitAsyncLoop, emitAsyncTask]
      rw [ih, EventCallback_eidx]

theorem Once_onceFlags {α : Type} (s : Emitter α) (e n : String) (l : Ln α) :
    (Once s e n l).1.onceFlags = s.onceFlags := by
  unfold Once
  rw [On_onceFlags]

theorem applyOp_inv {α : Type} {s : Emitter α} (hs : Inv s) (hlt : s.eidx + 1 < U64)
    (op : Op α) : Inv (applyOp s op) := by
  cases op with
  | register e n l => exact On_inv hs hlt e n l
  | registerOnce e n l =>
      show Inv (Once s e n l).1
      unfold Once
      exact On_inv (hs.withNextId (s.nextOnceId + 1)) hlt e n _
  | unregister e n => exact Off_inv hs e n
  | emit e a => exact emitLoop_inv _ s e a hs
  | emitAsync e a => exact emitAsyncLoop_inv _ s e a hs

theorem applyOp_eidx_le {α : Type} (s : Emitter α) (op : Op α) :
    (applyOp s op).eidx ≤ s.eidx + 1 := by
  cases op with
  | register e n l => exact On_eidx_le s e n l
  | registerOnce e n l =>
      show (Once s e n l).1.eidx ≤ s.eidx + 1
      unfold Once
      exact On_eidx_le _ e n _
  | unregister e n =>
      show (Off s e n).eidx ≤ s.eidx + 1
      rw [Off_eidx]
      exact Nat.le_succ _
  | emit e a => rw [applyOp, Emit, emitLoop_eidx]; exact Nat.le_succ _
  | emitAsync e a =>
      show (EmitAsync s e a).state.eidx ≤ s.eidx + 1
      rw [EmitAsync]
      simpa using Nat.le_trans (Nat.le_of_eq (emitAsyncLoop_eidx _ s e a)) (Nat.le_succ _)

theorem applyOps_inv {α : Type} (ops : List (Op α)) :
    ∀ (s : Emitter α), Inv s → s.eidx + ops.length < U64 →
      Inv (applyOps s ops) ∧ (applyOps s ops).eidx ≤ s.eidx + ops.length := by
  induction ops with
  | nil => intro s hs _; exact ⟨hs, Nat.le_refl _⟩
  | cons op rest ih =>
      intro s hs hlt
      have hlt1 : s.eidx + 1 < U64 := by
        have : s.eidx + 1 ≤ s.eidx + (op :: rest).length := by
          simp [Nat.add_le_add_iff_left]
        omega
      have h1 : Inv (applyOp s op) := applyOp_inv hs hlt1 op
      have h2 : (applyOp s op).eidx ≤ s.eidx + 1 := applyOp_eidx_le s op
      have hrec := ih (applyOp s op) h1 (by simp at hlt; omega)
      refine ⟨hrec.1, ?_⟩
      have h3 := hrec.2
      have hstep : applyOps s (op :: rest) = applyOps (applyOp s op) rest := rfl
      rw [hstep]
      simp only [List.length_cons]
      omega

theorem Inv_applyOps_New {α : Type} (ops : List (Op α)) (hlen : ops.length < U64) :
    Inv (applyOps (New α) ops) :=
  (applyOps_inv ops (New α) (Inv_New α) (by simpa [New] using hlen)).1

theorem flagInd_le_one {α : Type} (id : Nat) (s : Emitter α) : flagInd id s ≤ 1 := by
  unfold flagInd
  split <;> simp

theorem flagInd_Off {α : Type} (id : Nat) (s : Emitter α) (e n : String) :
    flagInd id (Off s e n) = flagInd id s := by
  unfold flagInd
  rw [Off_onceFlags]

theorem flagInd_On {α : Type} (id : Nat) (s : Emitter α) (e n : String) (l : Option (Ln α)) :
    flagInd id (On s e n l).1 = flagInd id s := by
  unfold flagInd
  rw [On_onceFlags]

theorem flagInd_Once {α : Type} (id : Nat) (s : Emitter α) (e n : String) (l : Ln α) :
    flagInd id (Once s e n l).1 = flagInd id s := by
  unfold flagInd
  rw [Once_onceFlags]

theorem countForward_append {α : Type} (id : Nat) (t1 t2 : List (Tr α)) :
    countForward id (t1 ++ t2) = countForward id t1 + countForward id t2 := by
  induction t1 with
  | nil => simp [countForward]
  | cons t rest ih =>
      cases t with
      | call n e a => simpa [countForward] using ih
      | forward i e a =>
          simp only [List.cons_append, countForward, List.append_eq]
          rw [ih]
          omega

theorem EventCallback_count {α : Type} (id : Nat) (l : Ln α) :
    ∀ (s : Emitter α) (e : String) (a : List α),
      countForward id (EventCallback s l e a).2.1 + flagInd id s ≤
        flagInd id (EventCallback s l e a).1 := by
  induction l with
  | func cb => intro s e a; simp [EventCallback, countForward]
  | once id0 lnname inner ih =>
      intro s e a
      by_cases hid : id0 ∈ s.onceFlags
      · simp [EventCallback, hid, countForward]
      · simp only [EventCallback, if_neg hid]
        have h2 := ih (Off { s with onceFlags := id0 :: s.onceFlags } e lnname) e a
        by_cases hii : id0 = id
        · subst hii
          have hs0 : flagInd id0 s = 0 := by simp [flagInd, hid]
          have hs2 : flagInd id0 (Off { s with onceFlags := id0 :: s.onceFlags } e lnname) = 1 := by
            rw [flagInd_Off]; simp [flagInd]
          have hle := flagInd_le_one id0
            (EventCallback (Off { s with onceFlags := id0 :: s.onceFlags } e lnname) inner e a).1
          rw [hs2] at h2
          simp [countForward, hs0]
          omega
        · have hs2 : flagInd id (Off { s with onceFlags := id0 :: s.onceFlags } e lnname) =
              flagInd id s := by
            rw [flagInd_Off]
            simp [flagInd, List.mem_cons, Ne.symm hii]
          simp only [countForward, if_neg hii]
          rw [hs2] at h2
          omega

theorem emitLoop_count {α : Type} (id : Nat) (lns : List (NamedListener α)) :
    ∀ (s : Emitter α) (e : String) (a : List α),
      countForward id (emitLoop s lns e a).2.1 + flagInd id s ≤
        flagInd id (emitLoop s lns e a).1 := by
  induction lns with
  | nil => intro s e a; simp [emitLoop, countForward]
  | cons nl rest ih =>
      intro s e a
      simp only [emitLoop]
      cases hr : (EventCallback s nl.ln e a).2.2 with
      | some msg =>
          simp only [hr]
          have h1 := EventCallback_count id nl.ln s e a
          simpa [countForward] using h1
      | none =>
          simp only [hr]
          have h1 := EventCallback_count id nl.ln s e a
          have h2 := ih (EventCallback s nl.ln e a).1 e a
          simp only [countForward, countForward_append]
          omega

theorem emitAsyncLoop_count {α : Type} (id : Nat) (lns : List (NamedListener α)) :
    ∀ (s : Emitter α) (e : String) (a : List α),
      countForward id (emitAsyncLoop s lns e a).2.1 + flagInd id s ≤
        flagInd id (emitAsyncLoop s lns e a).1 := by
  induction lns with
  | nil => intro s e a; simp [emitAsyncLoop, countForward]
  | cons nl rest ih =>
      intro s e a
      simp only [emitAsyncLoop, emitAsyncTask]
      have h1 := EventCallback_count id nl.ln s e a
      have h2 := ih (EventCallback s nl.ln e a).1 e a
      simp only [countForward_append]
      omega

theorem applyOp_count {α : Type} (id : Nat) (s : Emitter α) (op : Op α) :
    countForward id (opTrace s op) + flagInd id s ≤ flagInd id (applyOp s op) := by
  cases op with
  | register e n l =>
      show countForward id [] + flagInd id s ≤ flagInd id (On s e n l).1
      simp [countForward, flagInd_On]
  | registerOnce e n l =>
      show countForward id [] + flagInd id s ≤ flagInd id (Once s e n l).1
      simp [countForward, flagInd_Once]
  | unregister e n =>
      show countForward id [] + flagInd id s ≤ flagInd id (Off s e n)
      simp [countForward, flagInd_Off]
  | emit e a =>
      show countForward id (Emit s e a).2.1 + flagInd id s ≤ flagInd id (Emit s e a).1
      unfold Emit
      exact emitLoop_count id _ s e a
  | emitAsync e a =>
      show countForward id (EmitAsync s e a).trace + flagInd id s ≤
        flagInd id (EmitAsync s e a).state
      unfold EmitAsync
      exact emitAsyncLoop_count id _ s e a

theorem runTrace_count {α : Type} (id : Nat) (ops : List (Op α)) :
    ∀ s : Emitter α,
      countForward id (runTrace s ops) + flagInd id s ≤ flagInd id (applyOps s ops) := by
  induction ops with
  | nil => intro s; simp [runTrace, countForward, applyOps]
  | cons op rest ih =>
      intro s
      simp only [runTrace, countForward_append]
      have h1 := applyOp_count id s op
      have h2 := ih (applyOp s op)
      have hstep : applyOps s (op :: rest) = applyOps (applyOp s op) rest := rfl
      rw [hstep]
      omega

theorem callsOf_append {α : Type} (t1 t2 : List (Tr α)) :
    callsOf (t1 ++ t2) = callsOf t1 ++ callsOf t2 := by
  induction t1 with
  | nil => simp [callsOf]
  | cons t rest ih => cases t <;> simp [callsOf, ih]

theorem EventCallback_callsOf {α : Type} (l : Ln α) :
    ∀ (s : Emitter α) (e : String) (a : List α),
      callsOf (EventCallback s l e a).2.1 = [] := by
  induction l with
  | func cb => intro s e a; simp [EventCallback, callsOf]
  | once id0 lnname inner ih =>
      intro s e a
      by_cases hid : id0 ∈ s.onceFlags
      · simp [EventCallback, hid, callsOf]
      · simp only [EventCallback, if_neg hid]
        simpa [callsOf] using ih _ e a

theorem emitLoop_none_calls {α : Type} (lns : List (NamedListener α)) :
    ∀ (s : Emitter α) (e : String) (a : List α), (emitLoop s lns e a).2.2 = none →
      callsOf (emitLoop s lns e a).2.1 = lns.map (fun nl => (nl.Name, e, a)) := by
  induction lns with
  | nil => intro s e a _; simp [emitLoop, callsOf]
  | cons nl rest ih =>
      intro s e a hnone
      simp only [emitLoop] at hnone ⊢
      cases hr : (EventCallback s nl.ln e a).2.2 with
      | some msg => simp [hr] at hnone
      | none =>
          simp only [hr] at hnone ⊢
          simp [callsOf, callsOf_append, EventCallback_callsOf, ih _ e a hnone]

theorem emitLoop_some_calls {α : Type} (lns : List (NamedListener α)) :
    ∀ (s : Emitter α) (e : String) (a : List α) (msg : String),
      (emitLoop s lns e a).2.2 = some msg →
      ∃ k, k < lns.length ∧
        callsOf (emitLoop s lns e a).2.1 = (lns.take (k + 1)).map (fun nl => (nl.Name, e, a)) := by
  induction lns with
  | nil => intro s e a msg h; simp [emitLoop] at h
  | cons nl rest ih =>
      intro s e a msg h
      simp only [emitLoop] at h ⊢
      cases hr : (EventCallback s nl.ln e a).2.2 with
      | some m =>
          refine ⟨0, Nat.succ_pos _, ?_⟩
          simp [hr, callsOf, EventCallback_callsOf]
      | none =>
          simp only [hr] at h ⊢
          rcases ih _ e a msg h with ⟨k, hk, hcalls⟩
          refine ⟨k + 1, by simpa using Nat.succ_lt_succ hk, ?_⟩
          simp [callsOf, callsOf_append, EventCallback_callsOf, hcalls]

theorem emitLoop_append {α : Type} (pre rest : List (NamedListener α)) :
    ∀ (s : Emitter α) (e : String) (a : List α), (emitLoop s pre e a).2.2 = none →
      emitLoop s (pre ++ rest) e a =
        ((emitLoop (emitLoop s pre e a).1 rest e a).1,
          (emitLoop s pre e a).2.1 ++ (emitLoop (emitLoop s pre e a).1 rest e a).2.1,
          (emitLoop (emitLoop s pre e a).1 rest e a).2.2) := by
  induction pre with
  | nil => intro s e a _; simp [emitLoop]
  | cons nl pre0 ih =>
      intro s e a hnone
      simp only [emitLoop, List.cons_append] at hnone ⊢
      cases hr : (EventCallback s nl.ln e a).2.2 with
      | some m => simp [hr] at hnone
      | none =>
          simp only [hr] at hnone ⊢
          have hih := ih (EventCallback s nl.ln e a).1 e a hnone
          simp only [List.append_eq]
          rw [hih]
          simp

theorem Off_removes_name {α : Type} {s : Emitter α} (hs : Inv s) (e n : String) :
    ∀ x ∈ (assocFind (Off s e n).evtm e).getD [], x.Name ≠ n := by
  by_cases he : e = ""
  · subst he
    rw [Off_clear_eq]
    simp [assocFind]
  cases hf : assocFind s.evtm e with
  | none =>
      rw [Off_missing_eq n he hf]
      simp [hf]
  | some lns =>
      by_cases hn : n = ""
      · subst hn
        rw [Off_event_eq he hf]
        simp [assocDel_find_self hs.events_nodup]
      cases ha : lns.any (fun nl => nl.Name == n) with
      | false =>
          rw [Off_noName_eq he hn hf ha]
          rw [hf]
          simp only [List.any_eq_false, beq_iff_eq] at ha
          simpa using ha
      | true =>
          rw [Off_del_eq he hn hf ha]
          cases hemp : (lnsDel n lns).isEmpty with
          | true =>
              simp only [hemp, if_true]
              simp [assocDel_find_self hs.events_nodup]
          | false =>
              simp only [hemp, Bool.false_eq_true, if_false]
              simp only [assocSet_find_self, Option.getD_some]
              exact fun x hx => lnsDel_name_ne x hx

theorem emitAsyncLoop_outcomes {α : Type} (lns : List (NamedListener α)) :
    ∀ (s : Emitter α) (e : String) (a : List α),
      (emitAsyncLoop s lns e a).2.2.length = lns.length ∧
        ∀ o ∈ (emitAsyncLoop s lns e a).2.2, o.doneSignaled = true ∧ o.escaped = none := by
  induction lns with
  | nil => intro s e a; simp [emitAsyncLoop]
  | cons nl rest ih =>
      intro s e a
      simp only [emitAsyncLoop, emitAsyncTask]
      rcases ih (EventCallback s nl.ln e a).1 e a with ⟨hlen, hall⟩
      refine ⟨by simpa using hlen, ?_⟩
      intro o ho
      rcases List.mem_cons.1 (by simpa using ho) with rfl | ho'
      · exact ⟨rfl, rfl⟩
      · exact hall o ho'

/-- C9: `register` (`emitter.On`) with an empty event name, an empty listener
name, or a nil listener panics and aborts before performing any mutation:
the returned state (registry mapping, published snapshot and sequence
counter) is exactly the state before the call, and the panic outcome is
set. -/
theorem on_precondition_panics_no_mutation {α : Type} (s : Emitter α) (e n : String)
    (l : Option (Ln α)) (h : e = "" ∨ n = "" ∨ l = none) :
    (On s e n l).1 = s ∧ ∃ msg, (On s e n l).2 = some msg := by
  by_cases he : e = ""
  · subst he
    rw [On_empty_event]
    exact ⟨rfl, _, rfl⟩
  rcases h with h | h | h
  · exact absurd h he
  · subst h
    rw [On_empty_name s he]
    exact ⟨rfl, _, rfl⟩
  · subst h
    by_cases hn : n = ""
    · subst hn
      rw [On_empty_name s he]
      exact ⟨rfl, _, rfl⟩
    · rw [On_nil_listener s he hn]
      exact ⟨rfl, _, rfl⟩

/-- C7: every asynchronous dispatch task signals `wg.Done()` and recovers a
panic of its callback locally (nothing escapes the task, the diagnostic
carries the event and listener names exactly when the callback panicked),
and on any emission the number of spawned task outcomes equals the
`wg.Add` count, every task completes, and `Wait` on the handle returns. -/
theorem emitAsync_fault_isolated {α : Type} :
    (∀ (s : Emitter α) (nl : NamedListener α) (e : String) (a : List α),
        (emitAsyncTask s nl e a).2.2.doneSignaled = true ∧
        (emitAsyncTask s nl e a).2.2.escaped = none ∧
        (emitAsyncTask s nl e a).2.2.logged =
          ((EventCallback s nl.ln e a).2.2).map (fun _ => (e, nl.Name))) ∧
    (∀ (s : Emitter α) (e : String) (a : List α),
        (EmitAsync s e a).outcomes.length = (EmitAsync s e a).counter ∧
        (∀ o ∈ (EmitAsync s e a).outcomes, o.doneSignaled = true ∧ o.escaped = none) ∧
        WaitReturns (EmitAsync s e a).counter (EmitAsync s e a).outcomes) := by
  constructor
  · intro s nl e a
    exact ⟨rfl, rfl, rfl⟩
  · intro s e a
    have h := emitAsyncLoop_outcomes (snapLns s.evtv e) s e a
    refine ⟨h.1, h.2, ?_⟩
    unfold WaitReturns
    have hself : ((EmitAsync s e a).outcomes.filter (fun o => o.doneSignaled)) =
        (EmitAsync s e a).outcomes :=
      List.filter_eq_self.2 (fun o ho => (h.2 o ho).1)
    rw [hself]
    exact h.1

/-- C1: after any sequence of public operations starting from `New`, a
synchronous `Emit` in which no callback panics invokes exactly the
listeners of the snapshot entry of the event, in snapshot order, passing
the event name and argument list unchanged to each, and the snapshot entry
is strictly ascending in registration sequence number. -/
theorem emit_sync_invokes_snapshot_in_order {α : Type} (ops : List (Op α))
    (event : String) (args : List α) (hlen : ops.length < U64)
    (hnf : (Emit (applyOps (New α) ops) event args).2.2 = none) :
    callsOf (Emit (applyOps (New α) ops) event args).2.1 =
      (snapLns (applyOps (New α) ops).evtv event).map (fun nl => (nl.Name, event, args)) ∧
    ((snapLns (applyOps (New α) ops).evtv event).map NamedListener.Index).Pairwise (· < ·) := by
  have hinv := Inv_applyOps_New ops hlen
  constructor
  · unfold Emit at hnf ⊢
    exact emitLoop_none_calls _ _ event args hnf
  · rw [snapLns_eq hinv event]
    apply sortStable_pairwise_lt
    cases hf : assocFind (applyOps (New α) ops).evtm event with
    | none => simp
    | some lns => simpa using hinv.idx_nodup _ (assocFind_mem hf)

/-- C6: after any sequence of public operations starting from `New`, the
ordered `Listeners` view of an event returns exactly the currently
registered listeners of that event sorted by registration sequence, and
the underlying sequence numbers are strictly ascending. -/
theorem listeners_ascending_order {α : Type} (ops : List (Op α)) (event : String)
    (hlen : ops.length < U64) :
    Listeners (applyOps (New α) ops) event =
      (sortStable ((assocFind (applyOps (New α) ops).evtm event).getD [])).map
        (fun nl => nl.ln) ∧
    ((snapLns (applyOps (New α) ops).evtv event).map NamedListener.Index).Pairwise (· < ·) := by
  have hinv := Inv_applyOps_New ops hlen
  constructor
  · unfold Listeners
    rw [snapLns_eq hinv event]
  · rw [snapLns_eq hinv event]
    apply sortStable_pairwise_lt
    cases hf : assocFind (applyOps (New α) ops).evtm event with
    | none => simp
    | some lns => simpa using hinv.idx_nodup _ (assocFind_mem hf)

/-- C2: the three-way contract of `unregister` (`emitter.Off`): with both
arguments empty the whole registry is cleared and `Events` is empty; with
only the event given the event entry is removed and no longer listed; with
both given exactly that listener is removed (the entry is pruned when it
becomes empty and other events are untouched); a missing target is a
silent no-op leaving the state unchanged; and no event ever remains with
zero listeners. -/
theorem off_three_way_contract {α : Type} (s : Emitter α) (hs : Inv s) :
    ((Off s "" "").evtm = [] ∧ Events (Off s "" "") = []) ∧
    (∀ e, e ≠ "" →
        (assocFind (Off s e "").evtm e = none ∧ e ∉ Events (Off s e "")) ∧
        (assocFind s.evtm e = none → Off s e "" = s)) ∧
    (∀ e n lns, e ≠ "" → n ≠ "" → assocFind s.evtm e = some lns →
        lns.any (fun nl => nl.Name == n) = true →
        assocFind (Off s e n).evtm e =
          (if (lnsDel n lns).isEmpty then none else some (lnsDel n lns)) ∧
        (lnsDel n lns).length + 1 = lns.length ∧
        (∀ e', e' ≠ e → assocFind (Off s e n).evtm e' = assocFind s.evtm e')) ∧
    (∀ e n, e ≠ "" → n ≠ "" →
        (assocFind s.evtm e = none ∨
          ∃ lns, assocFind s.evtm e = some lns ∧
            lns.any (fun nl => nl.Name == n) = false) →
        Off s e n = s) ∧
    (∀ e n, ∀ p ∈ (Off s e n).evtm, p.2 ≠ []) := by
  refine ⟨?_, ?_, ?_, ?_, ?_⟩
  · rw [Off_clear_eq]
    exact ⟨rfl, by simp [Events]⟩
  · intro e he
    cases hf : assocFind s.evtm e with
    | none =>
        rw [Off_missing_eq "" he hf]
        refine ⟨⟨hf, ?_⟩, fun _ => rfl⟩
        have hkeys : e ∉ s.evtm.map Prod.fst := assocFind_eq_none_iff.1 hf
        unfold Events
        rw [hs.snap, updateEvents_keys]
        exact hkeys
    | some lns =>
        rw [Off_event_eq he hf]
        refine ⟨⟨assocDel_find_self hs.events_nodup, ?_⟩, ?_⟩
        · unfold Events
          simp only [updateEvents_keys]
          exact assocFind_eq_none_iff.1 (assocDel_find_self hs.events_nodup)
        · intro hnone
          simp [hf] at hnone
  · intro e n lns he hn hf ha
    rw [Off_del_eq he hn hf ha]
    refine ⟨?_, lnsDel_length (hs.names_nodup _ (assocFind_mem hf)) ha, ?_⟩
    · cases hemp : (lnsDel n lns).isEmpty with
      | true => simp [hemp, assocDel_find_self hs.events_nodup]
      | false => simp [hemp, assocSet_find_self]
    · intro e' he'
      cases hemp : (lnsDel n lns).isEmpty with
      | true => simp [hemp, assocDel_find_ne he']
      | false => simp [hemp, assocSet_find_ne he']
  · intro e n he hn h
    rcases h with hf | ⟨lns, hf, ha⟩
    · exact Off_missing_eq n he hf
    · exact Off_noName_eq he hn hf ha
  · intro e n
    exact (Off_inv hs e n).lns_ne_nil

/-- C3: a once-wrapper (`onceListener.EventCallback`) forwards to its
wrapped listener at most once over any sequence of public operations
(emissions included); when its compare-and-set guard fails the wrapper is
a pure no-op (state unchanged, no forward, no panic); and when the guard
succeeds the wrapper first deregisters its name from the event via `Off`
(the state in which the wrapped listener runs no longer holds a listener
of that name under the event) and only then forwards. -/
theorem once_listener_at_most_once {α : Type} :
    (∀ (s : Emitter α) (ops : List (Op α)) (id : Nat),
        countForward id (runTrace s ops) + flagInd id s ≤ 1) ∧
    (∀ (s : Emitter α) (id : Nat) (lnname : String) (inner : Ln α) (e : String) (a : List α),
        id ∈ s.onceFlags →
        EventCallback s (Ln.once id lnname inner) e a = (s, [], none)) ∧
    (∀ (s : Emitter α) (id : Nat) (lnname : String) (inner : Ln α) (e : String) (a : List α),
        id ∉ s.onceFlags → Inv s →
        EventCallback s (Ln.once id lnname inner) e a =
          ((EventCallback (Off { s with onceFlags := id :: s.onceFlags } e lnname) inner e a).1,
            Tr.forward id e a ::
              (EventCallback (Off { s with onceFlags := id :: s.onceFlags } e lnname)
                  inner e a).2.1,
            (EventCallback (Off { s with onceFlags := id :: s.onceFlags } e lnname)
                inner e a).2.2) ∧
        (∀ x ∈ (assocFind
              (Off { s with onceFlags := id :: s.onceFlags } e lnname).evtm e).getD [],
            x.Name ≠ lnname)) := by
  refine ⟨?_, ?_, ?_⟩
  · intro s ops id
    have h1 := runTrace_count id ops s
    have h2 := flagInd_le_one id (applyOps s ops)
    omega
  · intro s id lnname inner e a hid
    simp [EventCallback, hid]
  · intro s id lnname inner e a hid hinv
    refine ⟨by simp [EventCallback, hid], ?_⟩
    exact Off_removes_name (hinv.withFlags (id :: s.onceFlags)) e lnname

/-- C4: registering a listener under an already-used `(event, name)` pair
overwrites in place: the entry keeps the same number of slots as after the
first registration, and it holds exactly one listener of that name, whose
listener value is the most recently registered one and whose sequence
number is the freshly assigned counter value. -/
theorem on_overwrite_same_name {α : Type} (s : Emitter α) (e n : String) (l1 l2 : Ln α)
    (hs : Inv s) (he : e ≠ "") (hn : n ≠ "") (hlt : s.eidx + 2 < U64) :
    ((assocFind (On (On s e n (some l1)).1 e n (some l2)).1.evtm e).getD []).length =
      ((assocFind (On s e n (some l1)).1.evtm e).getD []).length ∧
    ((assocFind (On (On s e n (some l1)).1 e n (some l2)).1.evtm e).getD []).filter
        (fun x => decide (x.Name = n)) = [⟨n, s.eidx + 2, l2⟩] ∧
    (assocFind (On (On s e n (some l1)).1 e n (some l2)).1.evtm e).isSome = true := by
  have hlt1 : s.eidx + 1 < U64 := by omega
  have hmod1 : (s.eidx + 1) % U64 = s.eidx + 1 := Nat.mod_eq_of_lt hlt1
  cases hf : assocFind s.evtm e with
  | none =>
      rw [On_eq_new he hn l1 hf]
      have hf1 : assocFind (assocSet s.evtm e [⟨n, (s.eidx + 1) % U64, l1⟩]) e =
          some [⟨n, (s.eidx + 1) % U64, l1⟩] := assocSet_find_self
      rw [On_eq_add he hn l2 hf1]
      simp only [assocSet_find_self, Option.getD_some, Option.isSome_some]
      have heidx : ((s.eidx + 1) % U64 + 1) % U64 = s.eidx + 2 := by
        rw [hmod1]
        exact Nat.mod_eq_of_lt hlt
      refine ⟨?_, ?_, trivial⟩
      · simp [lnsSet]
      · simp [lnsSet, heidx]
  | some lns0 =>
      rw [On_eq_add he hn l1 hf]
      have hf1 : assocFind (assocSet s.evtm e (lnsSet ⟨n, (s.eidx + 1) % U64, l1⟩ lns0)) e =
          some (lnsSet ⟨n, (s.eidx + 1) % U64, l1⟩ lns0) := assocSet_find_self
      rw [On_eq_add he hn l2 hf1]
      simp only [assocSet_find_self, Option.getD_some, Option.isSome_some]
      have heidx : ((s.eidx + 1) % U64 + 1) % U64 = s.eidx + 2 := by
        rw [hmod1]
        exact Nat.mod_eq_of_lt hlt
      have hnd1 : ((lnsSet ⟨n, (s.eidx + 1) % U64, l1⟩ lns0).map NamedListener.Name).Nodup :=
        lnsSet_names_nodup (hs.names_nodup _ (assocFind_mem hf))
      refine ⟨?_, ?_, trivial⟩
      · exact lnsSet_length_of_contains ⟨_, lnsSet_self_mem, rfl⟩
      · rw [heidx]
        exact @lnsSet_filter_self α ⟨n, s.eidx + 2, l2⟩ (lnsSet ⟨n, (s.eidx + 1) % U64, l1⟩ lns0) hnd1

/-- C8: during a synchronous `Emit`, when the listeners before position
`k` of the snapshot entry run without panic and the listener at position
`k` panics with `msg`, the emission returns the panic `msg` to the caller
(no recovery), and the recorded invocations are exactly the listeners up
to and including the panicking one: no later listener is invoked. -/
theorem emit_sync_fault_aborts_rest {α : Type} (s : Emitter α) (event : String)
    (args : List α) (pre : List (NamedListener α)) (nl : NamedListener α)
    (post : List (NamedListener α)) (msg : String)
    (hsnap : snapLns s.evtv event = pre ++ nl :: post)
    (hpre : (emitLoop s pre event args).2.2 = none)
    (hfault : (EventCallback (emitLoop s pre event args).1 nl.ln event args).2.2 = some msg) :
    (Emit s event args).2.2 = some msg ∧
    callsOf (Emit s event args).2.1 =
      pre.map (fun x => (x.Name, event, args)) ++ [(nl.Name, event, args)] := by
  unfold Emit
  rw [hsnap, emitLoop_append pre (nl :: post) s event args hpre]
  constructor
  · show (emitLoop (emitLoop s pre event args).1 (nl :: post) event args).2.2 = some msg
    simp [emitLoop, hfault]
  · show callsOf ((emitLoop s pre event args).2.1 ++
        (emitLoop (emitLoop s pre event args).1 (nl :: post) event args).2.1) = _
    rw [callsOf_append, emitLoop_none_calls pre s event args hpre]
    simp [emitLoop, hfault, callsOf, EventCallback_callsOf]

/-- C5 counterexample: the claim reads the matcher forms as exclusive
("a pattern beginning with `*` matches exactly the names ending with the
pattern minus its leading `*`"), but the built-in matcher accepts the
pattern `*a*` against the emitted name `*ax` through its trailing-star
(prefix) branch although `*ax` does not end with `a*`. -/
theorem matchEvent_exactly_counterexample :
    matchEvent ['*', 'a', '*'] ['*', 'a', 'x'] = true ∧
    List.isPrefixOf ['*'] ['*', 'a', '*'] = true ∧
    (['*', 'a', '*'] : List Char) ≠ ['*'] ∧
    List.isSuffixOf ((['*', 'a', '*'] : List Char).drop 1) ['*', 'a', 'x'] = false :=
  ⟨by decide, by decide, by decide, by decide⟩

/-- C5 (amended): in pattern mode, emit invokes exactly the union of the
listeners of the registered patterns accepted by the matcher; and the
reference matcher accepts pattern `p` against emitted name `e` iff
`p = *`, or `p` begins with `*` and `e` ends with `p` minus its leading
`*`, or `p` ends with `*` and `e` begins with `p` minus its trailing `*`,
or `p = e` — the four forms are alternatives (checked in order with
fall-through), not exclusive cases. -/
theorem pattern_emit_matches_union {α : Type} :
    (∀ (m : eventManager α) (f : List Char → List Char → Bool) (event : List Char)
        (args : List α) (name : String),
        m.matchEvent = some f →
        (Tr.call name (String.mk event) args ∈ EmitM m event args ↔
          ∃ p ∈ m.events, f p.1 event = true ∧ ∃ nl ∈ p.2, nl.Name = name)) ∧
    (∀ p e : List Char,
        matchEvent p e = true ↔
          (p = ['*'] ∨
            (List.isPrefixOf ['*'] p = true ∧ List.isSuffixOf (p.drop 1) e = true) ∨
            (List.isSuffixOf ['*'] p = true ∧ List.isPrefixOf p.dropLast e = true) ∨
            p = e)) := by
  constructor
  · intro m f event args name hf
    simp only [EmitM, hf, List.mem_flatMap, List.mem_filter, List.mem_map, Tr.call.injEq]
    constructor
    · rintro ⟨p, ⟨hp, hmatch⟩, nl, hnl, hname, -, -⟩
      exact ⟨p, hp, hmatch, nl, hnl, hname⟩
    · rintro ⟨p, hp, hmatch, nl, hnl, hname⟩
      exact ⟨p, ⟨hp, hmatch⟩, nl, hnl, hname, trivial, trivial⟩
  · intro p e
    unfold matchEvent
    split_ifs with h1 h2 h3
    · simp [h1]
    · rw [Bool.and_eq_true] at h2
      simp only [eq_self_iff_true, true_iff]
      exact Or.inr (Or.inl h2)
    · rw [Bool.and_eq_true] at h3
      simp only [eq_self_iff_true, true_iff]
      exact Or.inr (Or.inr (Or.inl h3))
    · rw [beq_iff_eq]
      constructor
      · intro he
        exact Or.inr (Or.inr (Or.inr he))
      · rintro (hc | hc | hc | hc)
        · exact absurd hc h1
        · exact absurd (by rw [Bool.and_eq_true]; exact hc) h2
        · exact absurd (by rw [Bool.and_eq_true]; exact hc) h3
        · exact hc

/-- Sample non-panicking callback. -/
def cbOk : Callback Nat := fun _ _ => none

/-- Sample panicking callback. -/
def cbBoom : Callback Nat := fun _ _ => some "boom"

/-- Sample operation sequence: two listeners on one event. -/
def opsW : List (Op Nat) :=
  [Op.register "e1" "ln1" (some (Ln.func cbOk)), Op.register "e1" "ln2" (some (Ln.func cbOk))]

/-- Sample reachable state with two listeners on `e1`. -/
def sW : Emitter Nat := applyOps (New Nat) opsW

/-- Sample operation sequence with removal and re-addition. -/
def opsW6 : List (Op Nat) :=
  [Op.register "e1" "a" (some (Ln.func cbOk)), Op.register "e1" "b" (some (Ln.func cbOk)),
    Op.unregister "e1" "a", Op.register "e1" "a" (some (Ln.func cbOk))]

/-- Sample operation sequence with a panicking listener in the middle. -/
def opsW8 : List (Op Nat) :=
  [Op.register "e" "a" (some (Ln.func cbOk)), Op.register "e" "b" (some (Ln.func cbBoom)),
    Op.register "e" "c" (some (Ln.func cbOk))]

/-- Sample reachable state for the fault-abort scenario. -/
def s8 : Emitter Nat := applyOps (New Nat) opsW8

/-- Sample state whose once flag 5 is already set. -/
def wFlagged : Emitter Nat :=
  { evtm := [], evtv := [], eidx := 0, onceFlags := [5], nextOnceId := 0 }

/-- Sample pattern-mode manager with a full-wildcard and an exact pattern. -/
def mgrW : eventManager Nat :=
  { matchEvent := some matchEvent
    events := [(['*'], [⟨"ln1", 1, Ln.func cbOk⟩]), (['e', 'x'], [⟨"ln4", 2, Ln.func cbOk⟩])] }

theorem emit_sync_invokes_snapshot_in_order_witness :
    opsW.length < U64 ∧
    (Emit (applyOps (New Nat) opsW) "e1" [5]).2.2 = none ∧
    (callsOf (Emit (applyOps (New Nat) opsW) "e1" [5]).2.1 =
        (snapLns (applyOps (New Nat) opsW).evtv "e1").map (fun nl => (nl.Name, "e1", [5])) ∧
      ((snapLns (applyOps (New Nat) opsW).evtv "e1").map NamedListener.Index).Pairwise
        (· < ·)) :=
  ⟨by decide, rfl, emit_sync_invokes_snapshot_in_order opsW "e1" [5] (by decide) rfl⟩

theorem off_three_way_contract_witness :
    (Off sW "" "").evtm = [] ∧ Events (Off sW "" "") = [] :=
  (off_three_way_contract sW (Inv_applyOps_New opsW (by decide))).1

theorem once_listener_at_most_once_witness :
    5 ∈ wFlagged.onceFlags ∧
    7 ∉ (New Nat).onceFlags ∧
    EventCallback wFlagged (Ln.once 5 "n" (Ln.func cbOk)) "e" [] = (wFlagged, [], none) ∧
    countForward 5 (runTrace (New Nat)
        [Op.registerOnce "e" "n" (Ln.func cbOk), Op.emit "e" [], Op.emit "e" []]) +
      flagInd 5 (New Nat) ≤ 1 ∧
    (EventCallback (New Nat) (Ln.once 7 "n" (Ln.func cbOk)) "e" []).2.2 = none :=
  ⟨by decide, by decide,
    (@once_listener_at_most_once Nat).2.1 wFlagged 5 "n" (Ln.func cbOk) "e" [] (by decide),
    (@once_listener_at_most_once Nat).1 (New Nat)
      [Op.registerOnce "e" "n" (Ln.func cbOk), Op.emit "e" [], Op.emit "e" []] 5,
    by
      rw [((@once_listener_at_most_once Nat).2.2 (New Nat) 7 "n" (Ln.func cbOk) "e" []
        (by decide) (Inv_New Nat)).1]
      rfl⟩

theorem on_overwrite_same_name_witness :
    ("e1" : String) ≠ "" ∧ ("ln1" : String) ≠ "" ∧ sW.eidx + 2 < U64 ∧
    (((assocFind (On (On sW "e1" "ln1" (some (Ln.func cbOk))).1 "e1" "ln1"
            (some (Ln.func cbBoom))).1.evtm "e1").getD []).length =
        ((assocFind (On sW "e1" "ln1" (some (Ln.func cbOk))).1.evtm "e1").getD []).length ∧
      ((assocFind (On (On sW "e1" "ln1" (some (Ln.func cbOk))).1 "e1" "ln1"
            (some (Ln.func cbBoom))).1.evtm "e1").getD []).filter
          (fun x => decide (x.Name = "ln1")) = [⟨"ln1", sW.eidx + 2, Ln.func cbBoom⟩] ∧
      (assocFind (On (On sW "e1" "ln1" (some (Ln.func cbOk))).1 "e1" "ln1"
          (some (Ln.func cbBoom))).1.evtm "e1").isSome = true) :=
  ⟨by decide, by decide, by decide,
    on_overwrite_same_name sW "e1" "ln1" (Ln.func cbOk) (Ln.func cbBoom)
      (Inv_applyOps_New opsW (by decide)) (by decide) (by decide) (by decide)⟩

theorem pattern_emit_matches_union_witness :
    mgrW.matchEvent = some matchEvent ∧
    Tr.call "ln1" (String.mk ['e', 'x']) ([] : List Nat) ∈ EmitM mgrW ['e', 'x'] [] ∧
    (matchEvent ['*', '.', 's'] ['e', '.', 's'] = true ↔
      ((['*', '.', 's'] : List Char) = ['*'] ∨
        (List.isPrefixOf ['*'] ['*', '.', 's'] = true ∧
          List.isSuffixOf ((['*', '.', 's'] : List Char).drop 1) ['e', '.', 's'] = true) ∨
        (List.isSuffixOf ['*'] ['*', '.', 's'] = true ∧
          List.isPrefixOf (['*', '.', 's'] : List Char).dropLast ['e', '.', 's'] = true) ∨
        (['*', '.', 's'] : List Char) = ['e', '.', 's'])) :=
  ⟨rfl,
    ((@pattern_emit_matches_union Nat).1 mgrW matchEvent ['e', 'x'] [] "ln1" rfl).mpr
      ⟨(['*'], [⟨"ln1", 1, Ln.func cbOk⟩]), List.mem_cons_self _ _, by decide,
        ⟨"ln1", 1, Ln.func cbOk⟩, List.mem_cons_self _ _, rfl⟩,
    (@pattern_emit_matches_union Nat).2 ['*', '.', 's'] ['e', '.', 's']⟩

theorem listeners_ascending_order_witness :
    opsW6.length < U64 ∧
    (Listeners (applyOps (New Nat) opsW6) "e1" =
        (sortStable ((assocFind (applyOps (New Nat) opsW6).evtm "e1").getD [])).map
          (fun nl => nl.ln) ∧
      ((snapLns (applyOps (New Nat) opsW6).evtv "e1").map NamedListener.Index).Pairwise
        (· < ·)) :=
  ⟨by decide, listeners_ascending_order opsW6 "e1" (by decide)⟩

theorem emit_sync_fault_aborts_rest_witness :
    snapLns s8.evtv "e" =
      [⟨"a", 1, Ln.func cbOk⟩] ++ (⟨"b", 2, Ln.func cbBoom⟩ : NamedListener Nat) ::
        [⟨"c", 3, Ln.func cbOk⟩] ∧
    (emitLoop s8 [⟨"a", 1, Ln.func cbOk⟩] "e" [9]).2.2 = none ∧
    (EventCallback (emitLoop s8 [⟨"a", 1, Ln.func cbOk⟩] "e" [9]).1
        (Ln.func cbBoom) "e" [9]).2.2 = some "boom" ∧
    ((Emit s8 "e" [9]).2.2 = some "boom" ∧
      callsOf (Emit s8 "e" [9]).2.1 = [("a", "e", [9]), ("b", "e", [9])]) :=
  ⟨rfl, rfl, rfl,
    emit_sync_fault_aborts_rest s8 "e" [9] [⟨"a", 1, Ln.func cbOk⟩]
      ⟨"b", 2, Ln.func cbBoom⟩ [⟨"c", 3, Ln.func cbOk⟩] "boom" rfl rfl rfl⟩

theorem on_precondition_panics_no_mutation_witness :
    (("" : String) = "" ∨ ("ln1" : String) = "" ∨
      (some (Ln.func cbOk) : Option (Ln Nat)) = none) ∧
    (On (New Nat) "" "ln1" (some (Ln.func cbOk))).1 = New Nat :=
  ⟨Or.inl rfl,
    (on_precondition_panics_no_mutation (New Nat) "" "ln1" (some (Ln.func cbOk))
      (Or.inl rfl)).1⟩

end GoEvent
